import Mathlib

/-!
Verification of the keyword-argument extraction primitive in
`src/main/c/cext/args.c` (`rb_get_kwargs` and its helpers).

The C code works on Ruby `VALUE`s.  We embed:
* symbolic keys (`ID`) as natural numbers;
* Ruby values as an inductive with a distinguished `undef` sentinel
  (`Qundef`), a `nil`, and opaque payloads;
* the keyword hash as an association list (a Ruby hash has unique keys,
  which appears as a `Nodup` hypothesis where needed), possibly absent
  (`Option`), since the C code accepts `Qnil`;
* the output buffer `VALUE *values` as `Option (List RValue)`;
* raising (`rb_exc_raise`) as returning an error constructor carrying the
  fault's key list together with the hash and buffer state at the moment
  of the raise (the mutations performed before raising are visible to the
  caller, so the embedding must expose them);
* dereferencing a null pointer or calling a hash operation on `Qnil`
  as a distinguished `crash` outcome.
-/

namespace Args

/-- Symbolic identifier (Ruby `ID`). -/
abbrev ID := Nat

/-- Embedded Ruby value: the `Qundef` sentinel, `Qnil`, or an opaque object. -/
inductive RValue where
  | undef : RValue
  | nil : RValue
  | obj : Nat → RValue
deriving DecidableEq, Repr

/-- The keyword hash: an association list from `ID` to value. -/
abbrev Hash := List (ID × RValue)

/-- `rb_hash_lookup2(hash, key, default)`: value for `key`, or `default`. -/
def hashLookup2 (h : Hash) (k : ID) (d : RValue) : RValue :=
  match h.find? (fun q => q.1 == k) with
  | some q => q.2
  | none => d

/-- `rb_hash_delete(hash, key)`: remove the entry for `key` (a hash has at
most one). -/
def hashDelete (h : Hash) (k : ID) : Hash :=
  h.filter (fun q => q.1 != k)

/-- `RHASH_SIZE`. -/
def hashSize (h : Hash) : Nat := h.length

/-- `rb_hash_keys`: the keys in insertion order. -/
def hashKeys (h : Hash) : List ID := h.map Prod.fst

/-- Outcome of `rb_get_kwargs`.  Error constructors carry the hash and
buffer state at the moment `rb_exc_raise` unwinds; `crash` is a null
dereference or a hash operation on `Qnil`. -/
inductive KwResult where
  | ok : Nat → Option Hash → Option (List RValue) → KwResult
  | errMissing : List ID → Option Hash → Option (List RValue) → KwResult
  | errUnknown : List ID → Option Hash → Option (List RValue) → KwResult
  | crash : KwResult
deriving DecidableEq, Repr

/-- `rest = 1` iff the `optional` argument is negative (args.c line 50). -/
def restFlag (optional : Int) : Bool := optional < 0

/-- The decoded optional count: `optional = -1-optional` when negative
(args.c line 52). -/
def optCount (optional : Int) : Nat :=
  if optional < 0 then (-1 - optional).toNat else optional.toNat

/-- `rb_tr_extract_keyword`: look the key up with `Qundef` as default and,
when an output buffer is present, delete it from the hash.  A `none` hash
is `Qnil`: the lookup crashes. -/
def extractKeyword (hash : Option Hash) (key : ID) (hasValues : Bool) :
    Option (RValue × Hash) :=
  match hash with
  | none => none
  | some h =>
    let val := hashLookup2 h key .undef
    some (val, if hasValues then hashDelete h key else h)

/-- Pairs each key with its slot index, starting at `j`. -/
def enumFrom (j : Nat) : List ID → List (Nat × ID)
  | [] => []
  | k :: ks => (j, k) :: enumFrom (j + 1) ks

/-- The required-key pass of `rb_get_kwargs` (args.c lines 55-68): for each
required key, extract it, store it in its slot when a buffer is present,
and raise a `missing` fault naming just this key when it is absent. -/
def requiredLoop (hash : Option Hash) (values : Option (List RValue))
    (extracted : Nat) :
    List (Nat × ID) → Except KwResult (Option Hash × Option (List RValue) × Nat)
  | [] => .ok (hash, values, extracted)
  | (n, key) :: rest =>
    match extractKeyword hash key values.isSome with
    | none => .error .crash
    | some (val, h') =>
      let values' := values.map (fun vs => vs.set n val)
      if val = .undef then .error (.errMissing [key] (some h') values')
      else requiredLoop (some h') values' (extracted + 1) rest

/-- The optional-key pass of `rb_get_kwargs` (args.c lines 70-80): extract
each optional key, store it (possibly `Qundef`) in its slot when a buffer
is present, and count the keys found.  Only entered with a non-nil hash. -/
def optionalLoop (hash : Hash) (values : Option (List RValue))
    (extracted : Nat) :
    List (Nat × ID) → Hash × Option (List RValue) × Nat
  | [] => (hash, values, extracted)
  | (m, key) :: rest =>
    let val := hashLookup2 hash key .undef
    let h' := if values.isSome then hashDelete hash key else hash
    let values' := values.map (fun vs => vs.set m val)
    optionalLoop h' values' (if val ≠ RValue.undef then extracted + 1 else extracted) rest

/-- `unknown_keyword_error` (args.c lines 28-35): delete every schema key
from the hash, then raise with the remaining keys.  Returns the key list
and the mutated hash. -/
def unknownKeywordError (hash : Hash) (table : List ID) (keywords : Nat) :
    List ID × Hash :=
  let h' := (table.take keywords).foldl hashDelete hash
  (hashKeys h', h')

/-- The tail fill of `rb_get_kwargs` (args.c lines 88-90): set slots
`extracted .. total - 1` to `Qundef`. -/
def tailFill (vs : List RValue) (extracted total : Nat) : List RValue :=
  (List.range' extracted (total - extracted)).foldl (fun l i => l.set i .undef) vs

/-- The return path of `rb_get_kwargs` (lines 88-92): the tail-fill loop
writes through `values` unconditionally, so with no buffer and
`extracted < required + optional` it dereferences null. -/
def finish (hash : Option Hash) (values : Option (List RValue))
    (extracted total : Nat) : KwResult :=
  match values with
  | some vs => .ok extracted hash (some (tailFill vs extracted total))
  | none => if extracted < total then .crash else .ok extracted hash none

/-- The guarded optional pass (args.c line 70: `if (optional && !NIL_P(keyword_hash))`). -/
def optionalStage (hash1 : Option Hash) (values1 : Option (List RValue))
    (extracted1 : Nat) (table : List ID) (required opt : Nat) :
    Option Hash × Option (List RValue) × Nat :=
  match hash1 with
  | some h =>
    if opt ≠ 0 then
      let r := optionalLoop h values1 extracted1
          (enumFrom required ((table.drop required).take opt))
      (some r.1, r.2.1, r.2.2)
    else (some h, values1, extracted1)
  | none => (none, values1, extracted1)

/-- The rest/exactness check (args.c lines 82-86) followed by the return
path: with `rest` unset and a non-nil hash whose size exceeds the
permitted baseline (`0` with a buffer, `extracted` without), raise the
unknown-keyword fault. -/
def restStage (hash2 : Option Hash) (values2 : Option (List RValue))
    (extracted2 : Nat) (table : List ID) (rest : Bool) (total : Nat) :
    KwResult :=
  match hash2 with
  | some h =>
    if !rest && decide (hashSize h > (if values2.isSome then 0 else extracted2)) then
      let r := unknownKeywordError h table total
      .errUnknown r.1 (some r.2) values2
    else finish (some h) values2 extracted2 total
  | none => finish none values2 extracted2 total

/-- `rb_get_kwargs(keyword_hash, table, required, optional, values)`
(args.c lines 45-93). -/
def rb_get_kwargs (keyword_hash : Option Hash) (table : List ID)
    (required : Nat) (optional : Int) (values : Option (List RValue)) :
    KwResult :=
  let rest := restFlag optional
  let opt := optCount optional
  match requiredLoop keyword_hash values 0 (enumFrom 0 (table.take required)) with
  | .error r => r
  | .ok (hash1, values1, extracted1) =>
    match optionalStage hash1 values1 extracted1 table required opt with
    | (hash2, values2, extracted2) =>
      restStage hash2 values2 extracted2 table rest (required + opt)

/-- The missing-fault key list of an outcome, when it is one. -/
def KwResult.missingPart : KwResult → Option (List ID)
  | .errMissing ks _ _ => some ks
  | _ => none

/-- The unknown-fault key list of an outcome, when it is one. -/
def KwResult.unknownPart : KwResult → Option (List ID)
  | .errUnknown ks _ _ => some ks
  | _ => none

/-- The returned `filledCount`, when the call returns. -/
def KwResult.okCount : KwResult → Option Nat
  | .ok e _ _ => some e
  | _ => none

/-- The hash state the caller observes after the call (also after a raise). -/
def KwResult.finalHash : KwResult → Option Hash
  | .ok _ h _ => h
  | .errMissing _ h _ => h
  | .errUnknown _ h _ => h
  | .crash => none

/-- The buffer state the caller observes after the call (also after a raise). -/
def KwResult.finalValues : KwResult → Option (List RValue)
  | .ok _ _ v => v
  | .errMissing _ _ v => v
  | .errUnknown _ _ v => v
  | .crash => none

/-- No stored value is the `Qundef` sentinel; true of every Ruby hash, and
what makes `rb_hash_lookup2 h k Qundef = Qundef` mean `k` is absent. -/
def UndefFree (h : Hash) : Prop := ∀ q ∈ h, q.2 ≠ RValue.undef

/-- Specification-side view of a pass over keys `ks`: slot `j + i` receives
the value looked up for `ks[i]` (the `Qundef` default for an absent key). -/
def writeSlots (vs : List RValue) (h : Hash) (j : Nat) : List ID → List RValue
  | [] => vs
  | k :: ks => writeSlots (vs.set j (hashLookup2 h k .undef)) h (j + 1) ks

/-- The calling convention for the `optional` argument: `O` when rest keys
are rejected, `-(O+1)` when they are allowed. -/
def encodeOpt (rest : Bool) (O : Nat) : Int :=
  if rest then -(O + 1 : Int) else O

/-- `(range' e n).foldl set-undef`, the tail-fill loop counted by length. -/
def fillRange (vs : List RValue) (e n : Nat) : List RValue :=
  (List.range' e n).foldl (fun l i => l.set i .undef) vs

/-- The entries of `h` whose key is not declared by the schema. -/
def nonSchema (h : Hash) (req optk : List ID) : Hash :=
  h.filter (fun q => decide (q.1 ∉ req ++ optk))

/-- How many of the keys `ks` are present in `h`. -/
def presentCount (h : Hash) (ks : List ID) : Nat :=
  (ks.filter (fun k => decide (k ∈ hashKeys h))).length

/-- The key-joining loop of `rb_keyword_error_new` (args.c lines 12-18):
append each key, separating consecutive keys with `", "`. -/
def keyListLoop : List String → String
  | [] => ""
  | [k] => k
  | k :: k' :: rest => k ++ ", " ++ keyListLoop (k' :: rest)

/-- `rb_keyword_error_new` (args.c lines 6-22): the error message.
`rb_sprintf("%s keyword%.*s", error, len > 1, "s")` prints the `"s"` with
precision `len > 1`, i.e. prints it exactly when the list has more than
one key; the `": "` and the joined keys are appended only when the list
is non-empty. -/
def rb_keyword_error_new (error : String) (keys : List String) : String :=
  let len := keys.length
  let msg := error ++ " keyword" ++ (if len > 1 then "s" else "")
  if len > 0 then msg ++ ": " ++ keyListLoop keys else msg

/-! ### Basic lemmas about the hash operations -/

theorem restFlag_encodeOpt (rest : Bool) (O : Nat) :
    restFlag (encodeOpt rest O) = rest := by
  unfold restFlag encodeOpt
  cases rest
  · simp
  · simp only [if_pos]
    rw [decide_eq_true_eq.mpr]
    omega

theorem optCount_encodeOpt (rest : Bool) (O : Nat) :
    optCount (encodeOpt rest O) = O := by
  unfold optCount encodeOpt
  cases rest
  · simp
  · simp only [if_pos]
    rw [if_pos (by omega)]
    omega

theorem mem_hashKeys {h : Hash} {k : ID} :
    k ∈ hashKeys h ↔ ∃ v, (k, v) ∈ h := by
  unfold hashKeys
  constructor
  · intro hk
    obtain ⟨⟨a, b⟩, hab, heq⟩ := List.mem_map.mp hk
    simp only at heq
    subst heq
    exact ⟨b, hab⟩
  · rintro ⟨v, hv⟩
    exact List.mem_map.mpr ⟨(k, v), hv, rfl⟩

theorem hashLookup2_eq_default_of_not_mem {h : Hash} {k : ID}
    (hk : k ∉ hashKeys h) (d : RValue) : hashLookup2 h k d = d := by
  unfold hashLookup2
  have hnone : h.find? (fun q => q.1 == k) = none := by
    rw [List.find?_eq_none]
    rintro ⟨a, b⟩ hab hpred
    have hak : a = k := by simpa using hpred
    subst hak
    exact hk (mem_hashKeys.mpr ⟨b, hab⟩)
  rw [hnone]

theorem hashLookup2_ne_undef {h : Hash} {k : ID} (hu : UndefFree h)
    (hk : k ∈ hashKeys h) : hashLookup2 h k .undef ≠ .undef := by
  unfold hashLookup2
  cases hfind : h.find? (fun q => q.1 == k) with
  | none =>
    exfalso
    rw [List.find?_eq_none] at hfind
    obtain ⟨v, hv⟩ := mem_hashKeys.mp hk
    exact hfind (k, v) hv (by simp)
  | some q =>
    exact hu q (List.mem_of_find?_eq_some hfind)

theorem hashLookup2_undef_iff {h : Hash} {k : ID} (hu : UndefFree h) :
    hashLookup2 h k .undef = .undef ↔ k ∉ hashKeys h := by
  constructor
  · intro heq hk; exact hashLookup2_ne_undef hu hk heq
  · intro hk; exact hashLookup2_eq_default_of_not_mem hk .undef

theorem find?_key_filter (h : Hash) (p : ID × RValue → Bool) (k : ID)
    (hp : ∀ v, p (k, v) = true) :
    (h.filter p).find? (fun q => q.1 == k) = h.find? (fun q => q.1 == k) := by
  induction h with
  | nil => rfl
  | cons q t ih =>
    obtain ⟨a, b⟩ := q
    by_cases hak : a = k
    · subst hak
      rw [List.filter_cons, if_pos (hp b)]
      simp [List.find?]
    · rw [List.filter_cons]
      by_cases hpq : p (a, b) = true
      · rw [if_pos hpq]
        simp only [List.find?_cons]
        have : ((a, b).1 == k) = false := by simpa using hak
        rw [this, ih]
      · rw [if_neg hpq]
        simp only [List.find?_cons]
        have : ((a, b).1 == k) = false := by simpa using hak
        rw [this, ih]

theorem hashLookup2_filter (h : Hash) (p : ID × RValue → Bool) (k : ID)
    (d : RValue) (hp : ∀ v, p (k, v) = true) :
    hashLookup2 (h.filter p) k d = hashLookup2 h k d := by
  unfold hashLookup2
  rw [find?_key_filter h p k hp]

theorem hashDelete_eq_filter (h : Hash) (k : ID) :
    hashDelete h k = h.filter (fun q => q.1 != k) := rfl

theorem foldl_hashDelete_eq_filter (ks : List ID) (h : Hash) :
    ks.foldl hashDelete h = h.filter (fun q => decide (q.1 ∉ ks)) := by
  induction ks generalizing h with
  | nil => simp
  | cons k ks ih =>
    rw [List.foldl_cons, ih, hashDelete_eq_filter, List.filter_filter]
    apply List.filter_congr
    rintro ⟨a, b⟩ _
    simp only [List.mem_cons, not_or, bne_iff_ne, ne_eq]
    by_cases hak : a = k <;> by_cases haks : a ∈ ks <;> simp [hak, haks]

/-! ### Lemmas about `writeSlots` -/

theorem writeSlots_length (vs : List RValue) (h : Hash) (j : Nat)
    (ks : List ID) : (writeSlots vs h j ks).length = vs.length := by
  induction ks generalizing vs j with
  | nil => rfl
  | cons k ks ih =>
    simp only [writeSlots]
    rw [ih, List.length_set]

theorem writeSlots_congr {h1 h2 : Hash} (vs : List RValue) (j : Nat)
    {ks : List ID}
    (hlk : ∀ k ∈ ks, hashLookup2 h1 k .undef = hashLookup2 h2 k .undef) :
    writeSlots vs h1 j ks = writeSlots vs h2 j ks := by
  induction ks generalizing vs j with
  | nil => rfl
  | cons k ks ih =>
    simp only [writeSlots]
    rw [hlk k (by simp)]
    exact ih _ _ (fun k' hk' => hlk k' (by simp [hk']))

theorem writeSlots_getElem?_lt (vs : List RValue) (h : Hash) (j : Nat)
    (ks : List ID) {i : Nat} (hi : i < j) :
    (writeSlots vs h j ks)[i]? = vs[i]? := by
  induction ks generalizing vs j with
  | nil => rfl
  | cons k ks ih =>
    simp only [writeSlots]
    rw [ih _ _ (by omega), List.getElem?_set, if_neg (by omega)]

theorem writeSlots_getElem?_ge (vs : List RValue) (h : Hash) (j : Nat)
    (ks : List ID) {i : Nat} (hi : j + ks.length ≤ i) :
    (writeSlots vs h j ks)[i]? = vs[i]? := by
  induction ks generalizing vs j with
  | nil => rfl
  | cons k ks ih =>
    simp only [List.length_cons] at hi
    simp only [writeSlots]
    rw [ih _ _ (by omega), List.getElem?_set, if_neg (by omega)]

theorem writeSlots_getElem?_mem (vs : List RValue) (h : Hash) (j : Nat)
    (ks : List ID) {m : Nat} (hm : m < ks.length) (hlen : j + m < vs.length) :
    (writeSlots vs h j ks)[j + m]? =
      some (hashLookup2 h (ks.get ⟨m, hm⟩) .undef) := by
  induction ks generalizing vs j m with
  | nil => simp at hm
  | cons k ks ih =>
    cases m with
    | zero =>
      simp only [writeSlots]
      rw [writeSlots_getElem?_lt _ _ _ _ (by omega), List.getElem?_set,
        if_pos (by omega), if_pos (by simpa using hlen)]
      rfl
    | succ m' =>
      simp only [List.length_cons] at hm
      simp only [writeSlots]
      have harith : j + (m' + 1) = (j + 1) + m' := by omega
      rw [harith, ih _ _ (by omega) (by rw [List.length_set]; omega)]
      rfl

/-! ### Lemmas about the tail-fill loop -/

theorem tailFill_eq_fillRange (vs : List RValue) (e t : Nat) :
    tailFill vs e t = fillRange vs e (t - e) := rfl

theorem fillRange_zero (vs : List RValue) (e : Nat) :
    fillRange vs e 0 = vs := rfl

theorem fillRange_succ (vs : List RValue) (e n : Nat) :
    fillRange vs e (n + 1) = fillRange (vs.set e .undef) (e + 1) n := by
  unfold fillRange
  rw [List.range'_succ, List.foldl_cons]

theorem fillRange_length (vs : List RValue) (e n : Nat) :
    (fillRange vs e n).length = vs.length := by
  induction n generalizing vs e with
  | zero => rfl
  | succ n ih =>
    rw [fillRange_succ, ih, List.length_set]

theorem fillRange_getElem?_lt (vs : List RValue) (e n : Nat) {i : Nat}
    (hi : i < e) : (fillRange vs e n)[i]? = vs[i]? := by
  induction n generalizing vs e with
  | zero => rfl
  | succ n ih =>
    rw [fillRange_succ, ih _ _ (by omega), List.getElem?_set, if_neg (by omega)]

theorem fillRange_getElem?_ge (vs : List RValue) (e n : Nat) {i : Nat}
    (hi : e + n ≤ i) : (fillRange vs e n)[i]? = vs[i]? := by
  induction n generalizing vs e with
  | zero => rfl
  | succ n ih =>
    rw [fillRange_succ, ih _ _ (by omega), List.getElem?_set, if_neg (by omega)]

theorem fillRange_getElem?_mem (vs : List RValue) (e n : Nat) {i : Nat}
    (hi1 : e ≤ i) (hi2 : i < e + n) (hlen : i < vs.length) :
    (fillRange vs e n)[i]? = some .undef := by
  induction n generalizing vs e with
  | zero => omega
  | succ n ih =>
    rw [fillRange_succ]
    by_cases hie : i = e
    · subst hie
      rw [fillRange_getElem?_lt _ _ _ (by omega), List.getElem?_set,
        if_pos rfl, if_pos hlen]
    · exact ih _ _ (by omega) (by omega) (by rw [List.length_set]; omega)

theorem fillRange_full (vs : List RValue) (n : Nat) (hlen : vs.length = n) :
    fillRange vs 0 n = List.replicate n RValue.undef := by
  apply List.ext_getElem?
  intro i
  by_cases hin : i < n
  · rw [fillRange_getElem?_mem _ _ _ (by omega) (by omega) (by omega),
      List.getElem?_replicate, if_pos hin]
  · rw [fillRange_getElem?_ge _ _ _ (by omega), List.getElem?_eq_none (by omega),
      List.getElem?_eq_none (by simp [hlen]; omega)]

/-! ### The required-key pass -/

theorem requiredLoop_probe_ok (h : Hash) (e j : Nat) (ks : List ID)
    (hpres : ∀ k ∈ ks, hashLookup2 h k .undef ≠ .undef) :
    requiredLoop (some h) none e (enumFrom j ks) =
      .ok (some h, none, e + ks.length) := by
  induction ks generalizing e j with
  | nil => simp [requiredLoop, enumFrom]
  | cons k ks ih =>
    simp only [enumFrom, requiredLoop, extractKeyword, Option.isSome_none,
      Bool.false_eq_true, if_false, Option.map_none']
    rw [if_neg (hpres k (by simp))]
    rw [ih (e + 1) (j + 1) (fun k' hk' => hpres k' (by simp [hk']))]
    have harith : e + 1 + ks.length = e + (k :: ks).length := by
      simp only [List.length_cons]; omega
    rw [harith]

theorem requiredLoop_probe_missing (h : Hash) (e j : Nat) (pre : List ID)
    (k : ID) (post : List ID)
    (hpres : ∀ k' ∈ pre, hashLookup2 h k' .undef ≠ .undef)
    (habs : hashLookup2 h k .undef = .undef) :
    requiredLoop (some h) none e (enumFrom j (pre ++ k :: post)) =
      .error (.errMissing [k] (some h) none) := by
  induction pre generalizing e j with
  | nil =>
    simp only [List.nil_append, enumFrom, requiredLoop, extractKeyword,
      Option.isSome_none, Bool.false_eq_true, if_false, Option.map_none']
    rw [if_pos habs]
  | cons k' pre ih =>
    simp only [List.cons_append, enumFrom, requiredLoop, extractKeyword,
      Option.isSome_none, Bool.false_eq_true, if_false, Option.map_none']
    rw [if_neg (hpres k' (by simp))]
    exact ih (e + 1) (j + 1) (fun x hx => hpres x (by simp [hx]))

theorem requiredLoop_extract_ok (h : Hash) (vs : List RValue) (e j : Nat)
    (ks : List ID) (hnd : ks.Nodup)
    (hpres : ∀ k ∈ ks, hashLookup2 h k .undef ≠ .undef) :
    requiredLoop (some h) (some vs) e (enumFrom j ks) =
      .ok (some (h.filter (fun q => decide (q.1 ∉ ks))),
           some (writeSlots vs h j ks), e + ks.length) := by
  induction ks generalizing h vs e j with
  | nil => simp [requiredLoop, enumFrom, writeSlots]
  | cons k ks ih =>
    obtain ⟨hknot, hndk⟩ := List.nodup_cons.mp hnd
    have hlk : ∀ k' ∈ ks,
        hashLookup2 (hashDelete h k) k' .undef = hashLookup2 h k' .undef := by
      intro k' hk'
      rw [hashDelete_eq_filter]
      exact hashLookup2_filter h _ k' .undef
        (fun v => by simp; rintro rfl; exact hknot hk')
    simp only [enumFrom, requiredLoop, extractKeyword, Option.isSome_some,
      if_true, Option.map_some']
    rw [if_neg (hpres k (by simp))]
    rw [ih (hashDelete h k) (vs.set j (hashLookup2 h k .undef)) (e + 1) (j + 1)
      hndk (fun k' hk' => by rw [hlk k' hk']; exact hpres k' (by simp [hk']))]
    have hhash : (hashDelete h k).filter (fun q => decide (q.1 ∉ ks)) =
        h.filter (fun q => decide (q.1 ∉ k :: ks)) := by
      rw [← foldl_hashDelete_eq_filter, ← foldl_hashDelete_eq_filter,
        ← List.foldl_cons]
    have hbuf : writeSlots (vs.set j (hashLookup2 h k .undef))
        (hashDelete h k) (j + 1) ks =
        writeSlots vs h j (k :: ks) := by
      rw [writeSlots_congr _ _ hlk]
      rfl
    have harith : e + 1 + ks.length = e + (k :: ks).length := by
      simp only [List.length_cons]; omega
    rw [hhash, hbuf, harith]

theorem requiredLoop_extract_missing (h : Hash) (vs : List RValue) (e j : Nat)
    (pre : List ID) (k : ID) (post : List ID)
    (hndpre : pre.Nodup) (hkpre : k ∉ pre)
    (hpres : ∀ k' ∈ pre, hashLookup2 h k' .undef ≠ .undef)
    (habs : hashLookup2 h k .undef = .undef) :
    requiredLoop (some h) (some vs) e (enumFrom j (pre ++ k :: post)) =
      .error (.errMissing [k]
        (some (hashDelete (h.filter (fun q => decide (q.1 ∉ pre))) k))
        (some ((writeSlots vs h j pre).set (j + pre.length) .undef))) := by
  induction pre generalizing h vs e j with
  | nil =>
    simp only [List.nil_append, enumFrom, requiredLoop, extractKeyword,
      Option.isSome_some, if_true, Option.map_some']
    rw [if_pos habs]
    have hfilter : h.filter (fun q => decide (q.1 ∉ ([] : List ID))) = h := by
      simp
    rw [hfilter, habs]
    simp [writeSlots]
  | cons k' pre ih =>
    obtain ⟨hknot, hndk⟩ := List.nodup_cons.mp hndpre
    have hkk' : k ≠ k' := fun hkk => hkpre (hkk ▸ List.mem_cons_self k' pre)
    have hlk : ∀ x, x ≠ k' →
        hashLookup2 (hashDelete h k') x .undef = hashLookup2 h x .undef := by
      intro x hx
      rw [hashDelete_eq_filter]
      exact hashLookup2_filter h _ x .undef (fun v => by simpa using hx)
    simp only [List.cons_append, enumFrom, requiredLoop, extractKeyword,
      Option.isSome_some, if_true, Option.map_some']
    rw [if_neg (hpres k' (by simp))]
    simp only [List.append_eq]
    rw [ih (hashDelete h k') (vs.set j (hashLookup2 h k' .undef)) (e + 1) (j + 1)
      hndk (fun hk => hkpre (by simp [hk]))
      (fun x hx => by
        rw [hlk x (fun hxk => hknot (hxk ▸ hx))]
        exact hpres x (by simp [hx]))
      (by rw [hlk k hkk']; exact habs)]
    have hhash : (hashDelete h k').filter (fun q => decide (q.1 ∉ pre)) =
        h.filter (fun q => decide (q.1 ∉ k' :: pre)) := by
      rw [← foldl_hashDelete_eq_filter, ← foldl_hashDelete_eq_filter,
        ← List.foldl_cons]
    have hbuf : writeSlots (vs.set j (hashLookup2 h k' .undef))
        (hashDelete h k') (j + 1) pre =
        writeSlots vs h j (k' :: pre) := by
      rw [writeSlots_congr _ _
        (fun x hx => hlk x (fun hxk => hknot (hxk ▸ hx)))]
      rfl
    have harith : j + 1 + pre.length = j + (k' :: pre).length := by
      simp only [List.length_cons]; omega
    rw [hhash, hbuf, harith]

/-! ### The optional-key pass -/

theorem optionalLoop_probe (h : Hash) (e j : Nat) (ks : List ID) :
    optionalLoop h none e (enumFrom j ks) =
      (h, none,
       e + (ks.filter (fun k => hashLookup2 h k .undef != .undef)).length) := by
  induction ks generalizing e j with
  | nil => simp [optionalLoop, enumFrom]
  | cons k ks ih =>
    simp only [enumFrom, optionalLoop, Option.isSome_none, Bool.false_eq_true,
      if_false, Option.map_none']
    rw [ih]
    by_cases hv : hashLookup2 h k .undef = .undef
    · rw [if_neg (by simp [hv])]
      rw [List.filter_cons_of_neg (by simp [hv])]
    · rw [if_pos (by simp [hv])]
      rw [List.filter_cons_of_pos (by simp [hv])]
      have harith : e + 1 +
          (ks.filter (fun x => hashLookup2 h x .undef != .undef)).length =
          e + ((ks.filter (fun x => hashLookup2 h x .undef != .undef)).length
            + 1) := by omega
      rw [harith]
      rfl

theorem optionalLoop_extract (h : Hash) (vs : List RValue) (e j : Nat)
    (ks : List ID) (hnd : ks.Nodup) :
    optionalLoop h (some vs) e (enumFrom j ks) =
      (h.filter (fun q => decide (q.1 ∉ ks)), some (writeSlots vs h j ks),
       e + (ks.filter (fun k => hashLookup2 h k .undef != .undef)).length) := by
  induction ks generalizing h vs e j with
  | nil => simp [optionalLoop, enumFrom, writeSlots]
  | cons k ks ih =>
    obtain ⟨hknot, hndk⟩ := List.nodup_cons.mp hnd
    have hlk : ∀ k' ∈ ks,
        hashLookup2 (hashDelete h k) k' .undef = hashLookup2 h k' .undef := by
      intro k' hk'
      rw [hashDelete_eq_filter]
      exact hashLookup2_filter h _ k' .undef
        (fun v => by simp; rintro rfl; exact hknot hk')
    simp only [enumFrom, optionalLoop, Option.isSome_some, if_true,
      Option.map_some']
    rw [ih (hashDelete h k) (vs.set j (hashLookup2 h k .undef)) _ (j + 1) hndk]
    have hhash : (hashDelete h k).filter (fun q => decide (q.1 ∉ ks)) =
        h.filter (fun q => decide (q.1 ∉ k :: ks)) := by
      rw [← foldl_hashDelete_eq_filter, ← foldl_hashDelete_eq_filter,
        ← List.foldl_cons]
    have hbuf : writeSlots (vs.set j (hashLookup2 h k .undef))
        (hashDelete h k) (j + 1) ks =
        writeSlots vs h j (k :: ks) := by
      rw [writeSlots_congr _ _ hlk]
      rfl
    have hcnt : (ks.filter
          (fun x => hashLookup2 (hashDelete h k) x .undef != .undef)).length =
        (ks.filter (fun x => hashLookup2 h x .undef != .undef)).length := by
      congr 1
      exact List.filter_congr (fun x hx => by rw [hlk x hx])
    rw [hhash, hbuf, hcnt]
    by_cases hv : hashLookup2 h k .undef = .undef
    · rw [if_neg (by simp [hv])]
      rw [List.filter_cons_of_neg (by simp [hv])]
    · rw [if_pos (by simp [hv])]
      rw [List.filter_cons_of_pos (by simp [hv])]
      have harith : e + 1 +
          (ks.filter (fun x => hashLookup2 h x .undef != .undef)).length =
          e + ((ks.filter (fun x => hashLookup2 h x .undef != .undef)).length
            + 1) := by omega
      rw [harith]
      rfl

/-! ### Counting lemmas for the size check -/

theorem length_filter_not_partition {α : Type} (l : List α) (p : α → Bool) :
    (l.filter p).length + (l.filter (fun a => !p a)).length = l.length := by
  induction l with
  | nil => rfl
  | cons a t ih =>
    cases hpa : p a <;> simp [List.filter_cons, hpa] <;> omega

theorem length_filter_or_disjoint {α : Type} (l : List α) (p q : α → Bool)
    (hdisj : ∀ a ∈ l, ¬(p a = true ∧ q a = true)) :
    (l.filter (fun a => p a || q a)).length =
      (l.filter p).length + (l.filter q).length := by
  induction l with
  | nil => rfl
  | cons a t ih =>
    have ht := ih (fun x hx => hdisj x (List.mem_cons_of_mem a hx))
    cases hpa : p a with
    | false =>
      cases hqa : q a with
      | false =>
        rw [List.filter_cons_of_neg (by simp [hpa, hqa]),
          List.filter_cons_of_neg (by simp [hpa]),
          List.filter_cons_of_neg (by simp [hqa]), ht]
      | true =>
        rw [List.filter_cons_of_pos (by simp [hpa, hqa]),
          List.filter_cons_of_neg (by simp [hpa]),
          List.filter_cons_of_pos (by simp [hqa])]
        simp only [List.length_cons, ht]
        omega
    | true =>
      cases hqa : q a with
      | false =>
        rw [List.filter_cons_of_pos (by simp [hpa, hqa]),
          List.filter_cons_of_pos (by simp [hpa]),
          List.filter_cons_of_neg (by simp [hqa])]
        simp only [List.length_cons, ht]
        omega
      | true =>
        exact absurd ⟨hpa, hqa⟩ (hdisj a (List.mem_cons_self a t))

theorem length_filter_mem_comm {l1 l2 : List ID} (h1 : l1.Nodup)
    (h2 : l2.Nodup) :
    (l1.filter (fun a => decide (a ∈ l2))).length =
      (l2.filter (fun a => decide (a ∈ l1))).length := by
  have e1 : (l1.filter (fun a => decide (a ∈ l2))).toFinset =
      l1.toFinset ∩ l2.toFinset := by
    ext x
    simp [List.mem_toFinset, List.mem_filter]
  have e2 : (l2.filter (fun a => decide (a ∈ l1))).toFinset =
      l2.toFinset ∩ l1.toFinset := by
    ext x
    simp [List.mem_toFinset, List.mem_filter]
  have n1 := List.Nodup.filter (fun a => decide (a ∈ l2)) h1
  have n2 := List.Nodup.filter (fun a => decide (a ∈ l1)) h2
  rw [← List.toFinset_card_of_nodup n1, ← List.toFinset_card_of_nodup n2,
    e1, e2, Finset.inter_comm]

theorem length_filter_key_mem (h : Hash) (ks : List ID) :
    (h.filter (fun q => decide (q.1 ∈ ks))).length =
      ((hashKeys h).filter (fun a => decide (a ∈ ks))).length := by
  unfold hashKeys
  rw [List.filter_map, List.length_map]
  rfl

theorem hash_length_partition (h : Hash) (req optk : List ID)
    (hkN : (hashKeys h).Nodup) (hscN : (req ++ optk).Nodup)
    (hreq : ∀ k ∈ req, k ∈ hashKeys h) :
    h.length = req.length
      + (optk.filter (fun k => decide (k ∈ hashKeys h))).length
      + (h.filter (fun q => decide (q.1 ∉ req ++ optk))).length := by
  have hpart := length_filter_not_partition h
      (fun q => decide (q.1 ∈ req ++ optk))
  have hneg : h.filter (fun q => !decide (q.1 ∈ req ++ optk)) =
      h.filter (fun q => decide (q.1 ∉ req ++ optk)) := by
    apply List.filter_congr
    intro q _
    simp
  have hcong : h.filter (fun q => decide (q.1 ∈ req ++ optk)) =
      h.filter (fun q => decide (q.1 ∈ req) || decide (q.1 ∈ optk)) := by
    apply List.filter_congr
    intro q _
    simp [List.mem_append]
  have hsplit := length_filter_or_disjoint h
      (fun q => decide (q.1 ∈ req)) (fun q => decide (q.1 ∈ optk))
      (fun q _ hq => (List.disjoint_of_nodup_append hscN)
        (by simpa using hq.1) (by simpa using hq.2))
  have hr : (h.filter (fun q => decide (q.1 ∈ req))).length = req.length := by
    rw [length_filter_key_mem, length_filter_mem_comm hkN hscN.of_append_left,
      List.filter_eq_self.mpr (fun a ha => by simpa using hreq a ha)]
  have ho : (h.filter (fun q => decide (q.1 ∈ optk))).length =
      (optk.filter (fun k => decide (k ∈ hashKeys h))).length := by
    rw [length_filter_key_mem, length_filter_mem_comm hkN hscN.of_append_right]
  rw [hneg, hcong] at hpart
  rw [hsplit] at hpart
  omega

theorem count_present_eq (h : Hash) (hu : UndefFree h) (ks : List ID) :
    (ks.filter (fun k => hashLookup2 h k .undef != .undef)).length =
      (ks.filter (fun k => decide (k ∈ hashKeys h))).length := by
  congr 1
  apply List.filter_congr
  intro k _
  by_cases hk : k ∈ hashKeys h
  · simp only [hk, decide_True]
    simpa [bne_iff_ne] using hashLookup2_ne_undef hu hk
  · simp only [hk, decide_False]
    simp [hashLookup2_eq_default_of_not_mem hk]

theorem filter_notMem_append (h : Hash) (l1 l2 : List ID) :
    (h.filter (fun q => decide (q.1 ∉ l1))).filter
        (fun q => decide (q.1 ∉ l2)) =
      h.filter (fun q => decide (q.1 ∉ l1 ++ l2)) := by
  rw [List.filter_filter]
  apply List.filter_congr
  intro q _
  by_cases h1 : q.1 ∈ l1 <;> by_cases h2 : q.1 ∈ l2 <;>
    simp [List.mem_append, h1, h2]

/-! ### The error message -/

theorem intercalate_go_append (s x y : String) (t : List String) :
    String.intercalate.go (x ++ y) s t = x ++ String.intercalate.go y s t := by
  induction t generalizing y with
  | nil => rfl
  | cons b t ih =>
    show String.intercalate.go (x ++ y ++ s ++ b) s t =
      x ++ String.intercalate.go (y ++ s ++ b) s t
    rw [String.append_assoc x y s, String.append_assoc x (y ++ s) b]
    exact ih (y ++ s ++ b)

theorem intercalate_cons_cons (s a b : String) (t : List String) :
    String.intercalate s (a :: b :: t) =
      a ++ s ++ String.intercalate s (b :: t) := by
  show String.intercalate.go a s (b :: t) = a ++ s ++ String.intercalate.go b s t
  show String.intercalate.go (a ++ s ++ b) s t = a ++ s ++ String.intercalate.go b s t
  exact intercalate_go_append s (a ++ s) b t

theorem keyListLoop_eq_intercalate (ks : List String) :
    keyListLoop ks = String.intercalate ", " ks := by
  induction ks with
  | nil => rfl
  | cons a t ih =>
    cases t with
    | nil => rfl
    | cons b t' =>
      rw [intercalate_cons_cons]
      show a ++ ", " ++ keyListLoop (b :: t') = _
      rw [ih]

/-! ### Unfolding `rb_get_kwargs` by stages -/

theorem rb_get_kwargs_of_requiredLoop_error {keyword_hash : Option Hash}
    {table : List ID} {required : Nat} {optional : Int}
    {values : Option (List RValue)} {r : KwResult}
    (hrl : requiredLoop keyword_hash values 0
      (enumFrom 0 (table.take required)) = .error r) :
    rb_get_kwargs keyword_hash table required optional values = r := by
  unfold rb_get_kwargs
  rw [hrl]

theorem rb_get_kwargs_of_requiredLoop_ok {keyword_hash : Option Hash}
    {table : List ID} {required : Nat} {optional : Int}
    {values : Option (List RValue)}
    {h1 : Option Hash} {v1 : Option (List RValue)} {e1 : Nat}
    (hrl : requiredLoop keyword_hash values 0
      (enumFrom 0 (table.take required)) = .ok (h1, v1, e1)) :
    rb_get_kwargs keyword_hash table required optional values =
      restStage (optionalStage h1 v1 e1 table required (optCount optional)).1
        (optionalStage h1 v1 e1 table required (optCount optional)).2.1
        (optionalStage h1 v1 e1 table required (optCount optional)).2.2
        table (restFlag optional) (required + optCount optional) := by
  unfold rb_get_kwargs
  rw [hrl]

theorem optionalStage_some (h : Hash) (v1 : Option (List RValue)) (e1 : Nat)
    (table : List ID) (required opt : Nat) :
    optionalStage (some h) v1 e1 table required opt =
      (some (optionalLoop h v1 e1
          (enumFrom required ((table.drop required).take opt))).1,
       (optionalLoop h v1 e1
          (enumFrom required ((table.drop required).take opt))).2.1,
       (optionalLoop h v1 e1
          (enumFrom required ((table.drop required).take opt))).2.2) := by
  by_cases hopt : opt = 0
  · subst hopt
    simp [optionalStage, optionalLoop, enumFrom]
  · show (if opt ≠ 0 then
        let r := optionalLoop h v1 e1
            (enumFrom required ((table.drop required).take opt));
        (some r.1, r.2.1, r.2.2)
      else (some h, v1, e1)) = _
    rw [if_pos hopt]

theorem restStage_some (hx : Hash) (v2 : Option (List RValue)) (e2 : Nat)
    (table : List ID) (rest : Bool) (total : Nat) :
    restStage (some hx) v2 e2 table rest total =
      if !rest && decide (hashSize hx > (if v2.isSome then 0 else e2)) then
        .errUnknown (unknownKeywordError hx table total).1
          (some (unknownKeywordError hx table total).2) v2
      else finish (some hx) v2 e2 total := rfl

theorem unknownKeywordError_eval (hx : Hash) (req optk : List ID) :
    unknownKeywordError hx (req ++ optk) (req.length + optk.length) =
      (hashKeys (hx.filter (fun q => decide (q.1 ∉ req ++ optk))),
       hx.filter (fun q => decide (q.1 ∉ req ++ optk))) := by
  unfold unknownKeywordError
  have htake : (req ++ optk).take (req.length + optk.length) = req ++ optk := by
    rw [← List.length_append, List.take_length]
  rw [htake, foldl_hashDelete_eq_filter]

theorem nonSchema_filter_self (h : Hash) (req optk : List ID) :
    (nonSchema h req optk).filter (fun q => decide (q.1 ∉ req ++ optk)) =
      nonSchema h req optk :=
  List.filter_eq_self.mpr (fun _ hq => (List.mem_filter.mp hq).2)

theorem optionalStage_extract_eval (h : Hash) (vs2 : List RValue)
    (req optk : List ID) (hu : UndefFree h) (hscN : (req ++ optk).Nodup) :
    optionalStage (some (h.filter (fun q => decide (q.1 ∉ req)))) (some vs2)
        req.length (req ++ optk) req.length optk.length =
      (some (nonSchema h req optk),
       some (writeSlots vs2 h req.length optk),
       req.length + presentCount h optk) := by
  have hlk : ∀ k ∈ optk,
      hashLookup2 (h.filter (fun q => decide (q.1 ∉ req))) k .undef =
        hashLookup2 h k .undef := by
    intro k hk
    exact hashLookup2_filter h _ k .undef (fun v => by
      simp only [decide_eq_true_eq]
      exact fun hmem => List.disjoint_of_nodup_append hscN hmem hk)
  rw [optionalStage_some, List.drop_left, List.take_length]
  rw [optionalLoop_extract _ vs2 req.length req.length optk hscN.of_append_right]
  dsimp only
  have hhash := filter_notMem_append h req optk
  have hbuf := writeSlots_congr vs2 req.length hlk
  have hcnt : (optk.filter (fun k =>
      hashLookup2 (h.filter (fun q => decide (q.1 ∉ req))) k .undef
        != .undef)).length = presentCount h optk := by
    rw [List.filter_congr (fun k hk => by rw [hlk k hk])]
    exact count_present_eq h hu optk
  rw [hhash, hbuf, hcnt]
  rfl

theorem kwargs_extract_ok (h : Hash) (vs : List RValue) (req optk : List ID)
    (rest : Bool) (hu : UndefFree h) (hscN : (req ++ optk).Nodup)
    (hreq : ∀ k ∈ req, k ∈ hashKeys h)
    (hnu : rest = true ∨ nonSchema h req optk = []) :
    rb_get_kwargs (some h) (req ++ optk) req.length
        (encodeOpt rest optk.length) (some vs) =
      .ok (req.length + presentCount h optk) (some (nonSchema h req optk))
        (some (tailFill (writeSlots (writeSlots vs h 0 req) h req.length optk)
          (req.length + presentCount h optk) (req.length + optk.length))) := by
  have hpres : ∀ k ∈ req, hashLookup2 h k .undef ≠ .undef :=
    fun k hk => hashLookup2_ne_undef hu (hreq k hk)
  have hrl : requiredLoop (some h) (some vs) 0
      (enumFrom 0 (((req ++ optk).take req.length))) =
      .ok (some (h.filter (fun q => decide (q.1 ∉ req))),
        some (writeSlots vs h 0 req), req.length) := by
    rw [List.take_left]
    have := requiredLoop_extract_ok h vs 0 0 req hscN.of_append_left hpres
    simpa using this
  rw [rb_get_kwargs_of_requiredLoop_ok hrl, restFlag_encodeOpt,
    optCount_encodeOpt]
  rw [optionalStage_extract_eval h (writeSlots vs h 0 req) req optk hu hscN]
  dsimp only
  rw [restStage_some]
  have hcond : (!rest && decide (hashSize (nonSchema h req optk) >
      (if (some (writeSlots (writeSlots vs h 0 req) h req.length optk)).isSome
        then 0 else req.length + presentCount h optk))) = false := by
    rcases hnu with hrest | hempty
    · rw [hrest]
      rfl
    · simp [hashSize, hempty]
  rw [hcond]
  rfl

theorem kwargs_extract_unknown (h : Hash) (vs : List RValue)
    (req optk : List ID) (hu : UndefFree h) (hscN : (req ++ optk).Nodup)
    (hreq : ∀ k ∈ req, k ∈ hashKeys h)
    (hne : nonSchema h req optk ≠ []) :
    rb_get_kwargs (some h) (req ++ optk) req.length
        (encodeOpt false optk.length) (some vs) =
      .errUnknown (hashKeys (nonSchema h req optk))
        (some (nonSchema h req optk))
        (some (writeSlots (writeSlots vs h 0 req) h req.length optk)) := by
  have hpres : ∀ k ∈ req, hashLookup2 h k .undef ≠ .undef :=
    fun k hk => hashLookup2_ne_undef hu (hreq k hk)
  have hrl : requiredLoop (some h) (some vs) 0
      (enumFrom 0 (((req ++ optk).take req.length))) =
      .ok (some (h.filter (fun q => decide (q.1 ∉ req))),
        some (writeSlots vs h 0 req), req.length) := by
    rw [List.take_left]
    have := requiredLoop_extract_ok h vs 0 0 req hscN.of_append_left hpres
    simpa using this
  rw [rb_get_kwargs_of_requiredLoop_ok hrl, restFlag_encodeOpt,
    optCount_encodeOpt]
  rw [optionalStage_extract_eval h (writeSlots vs h 0 req) req optk hu hscN]
  dsimp only
  rw [restStage_some]
  have hcond : (!(false : Bool) && decide (hashSize (nonSchema h req optk) >
      (if (some (writeSlots (writeSlots vs h 0 req) h req.length optk)).isSome
        then 0 else req.length + presentCount h optk))) = true := by
    simp only [Bool.not_false, Bool.true_and, Option.isSome_some, if_true,
      decide_eq_true_eq, hashSize]
    exact List.length_pos.mpr hne
  rw [hcond, if_pos rfl]
  rw [unknownKeywordError_eval, nonSchema_filter_self]

theorem optionalStage_probe_eval (h : Hash) (e1 : Nat) (req optk : List ID)
    (hu : UndefFree h) :
    optionalStage (some h) none e1 (req ++ optk) req.length optk.length =
      (some h, none, e1 + presentCount h optk) := by
  rw [optionalStage_some, List.drop_left, List.take_length, optionalLoop_probe]
  dsimp only
  rw [count_present_eq h hu optk]
  rfl

theorem kwargs_probe_ok (h : Hash) (req optk : List ID) (rest : Bool)
    (hu : UndefFree h) (hkN : (hashKeys h).Nodup)
    (hscN : (req ++ optk).Nodup) (hreq : ∀ k ∈ req, k ∈ hashKeys h)
    (hnu : rest = true ∨ nonSchema h req optk = []) :
    rb_get_kwargs (some h) (req ++ optk) req.length
        (encodeOpt rest optk.length) none =
      finish (some h) none (req.length + presentCount h optk)
        (req.length + optk.length) := by
  have hrl : requiredLoop (some h) none 0
      (enumFrom 0 ((req ++ optk).take req.length)) =
      .ok (some h, none, req.length) := by
    rw [List.take_left]
    simpa using requiredLoop_probe_ok h 0 0 req
      (fun k hk => hashLookup2_ne_undef hu (hreq k hk))
  rw [rb_get_kwargs_of_requiredLoop_ok hrl, restFlag_encodeOpt,
    optCount_encodeOpt]
  rw [optionalStage_probe_eval h req.length req optk hu]
  dsimp only
  rw [restStage_some]
  have hcond : (!rest && decide (hashSize h >
      (if (none : Option (List RValue)).isSome then 0
        else req.length + presentCount h optk))) = false := by
    rcases hnu with hrest | hempty
    · rw [hrest]
      rfl
    · have hlen := hash_length_partition h req optk hkN hscN hreq
      have hE : (h.filter (fun q => decide (q.1 ∉ req ++ optk))).length = 0 := by
        have : h.filter (fun q => decide (q.1 ∉ req ++ optk)) =
            nonSchema h req optk := rfl
        rw [this, hempty]
        rfl
      have hp : presentCount h optk =
          (optk.filter (fun k => decide (k ∈ hashKeys h))).length := rfl
      have hnot : ¬(hashSize h > req.length + presentCount h optk) := by
        unfold hashSize
        omega
      simp [hnot]
  rw [hcond]
  rfl

theorem kwargs_probe_unknown (h : Hash) (req optk : List ID)
    (hu : UndefFree h) (hkN : (hashKeys h).Nodup)
    (hscN : (req ++ optk).Nodup) (hreq : ∀ k ∈ req, k ∈ hashKeys h)
    (hne : nonSchema h req optk ≠ []) :
    rb_get_kwargs (some h) (req ++ optk) req.length
        (encodeOpt false optk.length) none =
      .errUnknown (hashKeys (nonSchema h req optk))
        (some (nonSchema h req optk)) none := by
  have hrl : requiredLoop (some h) none 0
      (enumFrom 0 ((req ++ optk).take req.length)) =
      .ok (some h, none, req.length) := by
    rw [List.take_left]
    simpa using requiredLoop_probe_ok h 0 0 req
      (fun k hk => hashLookup2_ne_undef hu (hreq k hk))
  rw [rb_get_kwargs_of_requiredLoop_ok hrl, restFlag_encodeOpt,
    optCount_encodeOpt]
  rw [optionalStage_probe_eval h req.length req optk hu]
  dsimp only
  rw [restStage_some]
  have hcond : (!(false : Bool) && decide (hashSize h >
      (if (none : Option (List RValue)).isSome then 0
        else req.length + presentCount h optk))) = true := by
    have hlen := hash_length_partition h req optk hkN hscN hreq
    have hE : 0 < (h.filter (fun q => decide (q.1 ∉ req ++ optk))).length := by
      have : h.filter (fun q => decide (q.1 ∉ req ++ optk)) =
          nonSchema h req optk := rfl
      rw [this]
      exact List.length_pos.mpr hne
    have hp : presentCount h optk =
        (optk.filter (fun k => decide (k ∈ hashKeys h))).length := rfl
    have hgt : hashSize h > req.length + presentCount h optk := by
      unfold hashSize
      omega
    simp [hgt]
  rw [hcond, if_pos rfl, unknownKeywordError_eval]
  rfl

/-! ### The missing-required-key paths -/

theorem req_decomp (req : List ID) (n : Nat) (hn : n < req.length) :
    req.take n ++ req.get ⟨n, hn⟩ :: req.drop (n + 1) = req := by
  rw [List.get_eq_getElem, ← List.drop_eq_getElem_cons hn, List.take_append_drop]

theorem get_not_mem_take (req : List ID) (hnd : req.Nodup) (n : Nat)
    (hn : n < req.length) : req.get ⟨n, hn⟩ ∉ req.take n := by
  intro hmem
  obtain ⟨i, hm, heq⟩ := List.mem_take_iff_getElem.mp hmem
  have hi2 : i < n ∧ i < req.length := lt_min_iff.mp hm
  have : i = n := hnd.getElem_inj_iff.mp (by simpa using heq)
  omega

theorem mem_take_getElem (req : List ID) (n : Nat) (x : ID)
    (hx : x ∈ req.take n) :
    ∃ i, ∃ hl : i < req.length, i < n ∧ req.get ⟨i, hl⟩ = x := by
  obtain ⟨i, hm, heq⟩ := List.mem_take_iff_getElem.mp hx
  have hi2 : i < n ∧ i < req.length := lt_min_iff.mp hm
  exact ⟨i, hi2.2, hi2.1, by simpa using heq⟩

theorem kwargs_probe_missing (h : Hash) (req optk : List ID) (p : Int)
    (hu : UndefFree h) (n : Nat) (hn : n < req.length)
    (hfirst : ∀ i (hi : i < n), req.get ⟨i, by omega⟩ ∈ hashKeys h)
    (habs : req.get ⟨n, hn⟩ ∉ hashKeys h) :
    rb_get_kwargs (some h) (req ++ optk) req.length p none =
      .errMissing [req.get ⟨n, hn⟩] (some h) none := by
  have hres := requiredLoop_probe_missing h 0 0 (req.take n)
    (req.get ⟨n, hn⟩) (req.drop (n + 1))
    (fun x hx => by
      obtain ⟨i, hl, hi, hix⟩ := mem_take_getElem req n x hx
      exact hix ▸ hashLookup2_ne_undef hu (hfirst i hi))
    (hashLookup2_eq_default_of_not_mem habs .undef)
  rw [req_decomp req n hn] at hres
  apply rb_get_kwargs_of_requiredLoop_error
  rw [List.take_left]
  exact hres

theorem kwargs_extract_missing (h : Hash) (vs : List RValue)
    (req optk : List ID) (p : Int)
    (hu : UndefFree h) (hnd : req.Nodup) (n : Nat) (hn : n < req.length)
    (hfirst : ∀ i (hi : i < n), req.get ⟨i, by omega⟩ ∈ hashKeys h)
    (habs : req.get ⟨n, hn⟩ ∉ hashKeys h) :
    rb_get_kwargs (some h) (req ++ optk) req.length p (some vs) =
      .errMissing [req.get ⟨n, hn⟩]
        (some (hashDelete
          (h.filter (fun q => decide (q.1 ∉ req.take n))) (req.get ⟨n, hn⟩)))
        (some ((writeSlots vs h 0 (req.take n)).set n .undef)) := by
  have hlen : (req.take n).length = n := by
    rw [List.length_take]
    omega
  have hres := requiredLoop_extract_missing h vs 0 0 (req.take n)
    (req.get ⟨n, hn⟩) (req.drop (n + 1))
    ((List.take_sublist n req).nodup hnd) (get_not_mem_take req hnd n hn)
    (fun x hx => by
      obtain ⟨i, hl, hi, hix⟩ := mem_take_getElem req n x hx
      exact hix ▸ hashLookup2_ne_undef hu (hfirst i hi))
    (hashLookup2_eq_default_of_not_mem habs .undef)
  rw [req_decomp req n hn, hlen, Nat.zero_add] at hres
  apply rb_get_kwargs_of_requiredLoop_error
  rw [List.take_left]
  exact hres

theorem requiredLoop_probe_cases (h : Hash) (e : Nat) (l : List (Nat × ID)) :
    (∃ e2, requiredLoop (some h) none e l = .ok (some h, none, e2)) ∨
    (∃ k, requiredLoop (some h) none e l =
      .error (.errMissing [k] (some h) none)) := by
  induction l generalizing e with
  | nil => exact .inl ⟨e, rfl⟩
  | cons a l ih =>
    obtain ⟨m, key⟩ := a
    by_cases hv : hashLookup2 h key .undef = .undef
    · refine .inr ⟨key, ?_⟩
      simp only [requiredLoop, extractKeyword, Option.isSome_none,
        Bool.false_eq_true, if_false, Option.map_none']
      rw [if_pos hv]
    · rcases ih (e + 1) with ⟨e2, he⟩ | ⟨k, hk⟩
      · refine .inl ⟨e2, ?_⟩
        simp only [requiredLoop, extractKeyword, Option.isSome_none,
          Bool.false_eq_true, if_false, Option.map_none']
        rw [if_neg hv]
        exact he
      · refine .inr ⟨k, ?_⟩
        simp only [requiredLoop, extractKeyword, Option.isSome_none,
          Bool.false_eq_true, if_false, Option.map_none']
        rw [if_neg hv]
        exact hk

theorem finish_probe_unknownPart (hh : Option Hash) (e t : Nat) :
    (finish hh none e t).unknownPart = none := by
  unfold finish
  by_cases hlt : e < t
  · rw [if_pos hlt]
    rfl
  · rw [if_neg hlt]
    rfl

/-! ### The claims -/

/-- C4: the claim that after a successful extract-mode call the output slot
of each present optional key still holds its extracted value is violated by
the code: with `required = []`, `optional = [0, 1]` and the mapping holding
only the second optional key `1`, its extracted value `obj 42` is written
to slot 1 by the optional pass, but the tail-fill loop (which starts at
`extracted = 1`) then overwrites slot 1 with `Qundef`. -/
theorem claim4_tail_fill_clobbers_present_optional :
    rb_get_kwargs (some [(1, RValue.obj 42)]) [0, 1] 0 2
        (some [RValue.nil, RValue.nil]) =
      .ok 1 (some []) (some [RValue.undef, RValue.undef]) ∧
    RValue.undef ≠ RValue.obj 42 := ⟨rfl, by decide⟩

/-- C6: the claim that probe mode performs no write through the (absent)
output buffer is violated: with `required = []`, one optional key `0`, an
empty (non-nil) mapping and `values = NULL`, the code reaches the tail-fill
loop with `extracted = 0 < 1` and executes `values[0] = Qundef` through the
null pointer — modelled as the `crash` outcome. -/
theorem claim6_probe_tail_fill_null_write :
    rb_get_kwargs (some []) [0] 0 1 none = .crash := rfl

/-- C7 counterexample: for the passed optional-count `-2` the code computes
`optional = -1 - (-2) = 1` optional keyword, not the magnitude `2` that the
claim states. -/
theorem claim7_counterexample :
    optCount (-2) = 1 ∧ restFlag (-2) = true ∧
    Int.natAbs (-2) = 2 ∧ (1 : Nat) ≠ 2 := by
  refine ⟨?_, rfl, rfl, by decide⟩
  rfl

/-- C7 amended: when the optional-count argument is negative, rest keys are
allowed and the true number of optional keywords is the magnitude of the
passed value minus one (the caller passes `-(O+1)`). -/
theorem claim7_negative_optional_encoding (p : Int) (hp : p < 0) :
    restFlag p = true ∧ optCount p + 1 = p.natAbs := by
  constructor
  · simp [restFlag, hp]
  · unfold optCount
    rw [if_pos hp]
    omega

theorem claim7_negative_optional_encoding_witness :
    restFlag (-3) = true ∧ optCount (-3) + 1 = Int.natAbs (-3) :=
  claim7_negative_optional_encoding (-3) (by decide)

/-- C8: every fault message is
`"<missing|unknown> keyword<s>: k1, k2, ..."`: the trailing `"s"` appears
iff the key list has more than one entry, the colon-and-list suffix is
omitted when the list is empty, and the keys are joined with `", "` in the
order given. -/
theorem claim8_message_format (error : String) (keys : List String) :
    rb_keyword_error_new error keys =
      error ++ " keyword" ++ (if keys.length > 1 then "s" else "") ++
        (if keys = [] then "" else ": " ++ String.intercalate ", " keys) := by
  unfold rb_keyword_error_new
  cases keys with
  | nil => simp
  | cons a t =>
    rw [keyListLoop_eq_intercalate]
    rw [if_pos (by simp : (a :: t).length > 0)]
    rw [if_neg (by simp : ¬(a :: t = []))]
    rw [String.append_assoc]

/-- C10: with zero required keys and a nil mapping, extraction succeeds in
extract mode without touching the (absent) mapping: it returns
`filledCount = 0` and fills all `O` buffer slots with `Qundef`. -/
theorem claim10_nil_mapping_zero_required (table : List ID) (O : Nat)
    (rest : Bool) (vs : List RValue) (hlen : vs.length = O) :
    rb_get_kwargs none table 0 (encodeOpt rest O) (some vs) =
      .ok 0 none (some (List.replicate O RValue.undef)) := by
  have h1 : requiredLoop none (some vs) 0 (enumFrom 0 (table.take 0)) =
      .ok (none, some vs, 0) := by
    rw [List.take_zero]
    rfl
  rw [rb_get_kwargs_of_requiredLoop_ok h1, optCount_encodeOpt,
    restFlag_encodeOpt]
  dsimp only [optionalStage, restStage, finish]
  have h2 : tailFill vs 0 (0 + O) = List.replicate O RValue.undef := by
    show fillRange vs 0 (0 + O - 0) = _
    rw [Nat.zero_add, Nat.sub_zero]
    exact fillRange_full vs O hlen
  rw [h2]

theorem claim10_nil_mapping_zero_required_witness :
    rb_get_kwargs none [7, 8] 0 (encodeOpt true 2)
        (some [RValue.obj 3, RValue.obj 4]) =
      .ok 0 none (some (List.replicate 2 RValue.undef)) :=
  claim10_nil_mapping_zero_required [7, 8] 2 true
    [RValue.obj 3, RValue.obj 4] rfl

/-- C5 counterexample: in probe mode (`values = NULL`), a run that raises
the UnknownKeyword fault mutates the mapping: the schema key `0` is deleted
by `unknown_keyword_error` before raising, so the hash the caller observes
afterwards differs from the original. -/
theorem claim5_counterexample :
    rb_get_kwargs (some [(0, RValue.obj 1), (5, RValue.obj 2)]) [0] 0 1
        none =
      .errUnknown [5] (some [(5, RValue.obj 2)]) none ∧
    ([(5, RValue.obj 2)] : Hash) ≠ [(0, RValue.obj 1), (5, RValue.obj 2)] :=
  ⟨rfl, by decide⟩

/-- C5 amended: in probe mode the mapping is unchanged whenever the call
returns or raises MissingRequiredKeyword; when it raises UnknownKeyword the
mapping has every schema-declared key deleted (non-schema entries remain,
in order). -/
theorem claim5_probe_mutation (h : Hash) (table : List ID) (R : Nat)
    (p : Int) :
    (∀ e hf v, rb_get_kwargs (some h) table R p none = .ok e hf v →
      hf = some h) ∧
    (∀ ks hf v, rb_get_kwargs (some h) table R p none = .errMissing ks hf v →
      hf = some h) ∧
    (∀ ks hf v, rb_get_kwargs (some h) table R p none = .errUnknown ks hf v →
      hf = some (h.filter
        (fun q => decide (q.1 ∉ table.take (R + optCount p))))) := by
  rcases requiredLoop_probe_cases h 0 (enumFrom 0 (table.take R)) with
    ⟨e2, he⟩ | ⟨k, hk⟩
  · rw [rb_get_kwargs_of_requiredLoop_ok he, optionalStage_some,
      optionalLoop_probe]
    dsimp only
    rw [restStage_some]
    by_cases hcond : (!restFlag p && decide (hashSize h >
        (if (none : Option (List RValue)).isSome then 0
          else e2 + (((table.drop R).take (optCount p)).filter
            (fun k => hashLookup2 h k .undef != .undef)).length))) = true
    · rw [if_pos hcond]
      refine ⟨?_, ?_, ?_⟩
      · intro e hf v heq
        cases heq
      · intro ks hf v heq
        cases heq
      · intro ks hf v heq
        unfold unknownKeywordError at heq
        rw [foldl_hashDelete_eq_filter] at heq
        cases heq
        rfl
    · rw [if_neg (by simpa using hcond)]
      unfold finish
      by_cases hlt : e2 + (((table.drop R).take (optCount p)).filter
          (fun k => hashLookup2 h k .undef != .undef)).length <
          R + optCount p
      · rw [if_pos hlt]
        refine ⟨?_, ?_, ?_⟩ <;> intro a hf v heq <;> cases heq
      · rw [if_neg hlt]
        refine ⟨?_, ?_, ?_⟩ <;> intro a hf v heq <;> cases heq
        rfl
  · rw [rb_get_kwargs_of_requiredLoop_error hk]
    refine ⟨?_, ?_, ?_⟩ <;> intro a hf v heq <;> cases heq
    rfl

theorem claim5_probe_mutation_witness :
    (some [(5, RValue.obj 2)] : Option Hash) =
      some (List.filter
        (fun q => decide (q.1 ∉ (([0] : List ID)).take (0 + optCount 1)))
        [(0, RValue.obj 1), (5, RValue.obj 2)]) :=
  (claim5_probe_mutation [(0, RValue.obj 1), (5, RValue.obj 2)] [0] 0 1).2.2
    [5] (some [(5, RValue.obj 2)]) none rfl

/-- C2: for a (non-nil) mapping missing at least one required key, the call
raises the missing-keyword fault naming exactly the first missing required
key in schema order — regardless of how many required keys are missing and
in both probe and extract mode (any `optional` argument). -/
theorem claim2_missing_first_required (h : Hash) (req optk : List ID)
    (p : Int) (values : Option (List RValue)) (hu : UndefFree h)
    (hnd : req.Nodup) (n : Nat) (hn : n < req.length)
    (hfirst : ∀ i (hi : i < n), req.get ⟨i, by omega⟩ ∈ hashKeys h)
    (habs : req.get ⟨n, hn⟩ ∉ hashKeys h) :
    (rb_get_kwargs (some h) (req ++ optk) req.length p values).missingPart =
      some [req.get ⟨n, hn⟩] := by
  cases values with
  | none =>
    rw [kwargs_probe_missing h req optk p hu n hn hfirst habs]
    rfl
  | some vs =>
    rw [kwargs_extract_missing h vs req optk p hu hnd n hn hfirst habs]
    rfl

theorem claim2_missing_first_required_witness :
    (rb_get_kwargs (some [(1, RValue.obj 9)]) ([0, 1] ++ []) 2 0
        (some [RValue.obj 100, RValue.obj 100])).missingPart = some [0] :=
  claim2_missing_first_required [(1, RValue.obj 9)] [0, 1] [] 0
    (some [RValue.obj 100, RValue.obj 100])
    (by unfold UndefFree; decide) (by decide) 0
    (by decide) (fun i hi => absurd hi (Nat.not_lt_zero i)) (by decide)

/-- C9: in extract mode, when required keys at indices `0 .. n-1` are
present and the one at index `n` is the first absent one, the
missing-keyword fault is raised with: slots `0 .. n-1` holding the values
of the earlier required keys (now deleted from the mapping), slot `n` set
to `Qundef`, and every later slot untouched. -/
theorem claim9_missing_extract_state (h : Hash) (vs : List RValue)
    (req optk : List ID) (p : Int) (hu : UndefFree h) (hnd : req.Nodup)
    (n : Nat) (hn : n < req.length)
    (hfirst : ∀ i (hi : i < n), req.get ⟨i, by omega⟩ ∈ hashKeys h)
    (habs : req.get ⟨n, hn⟩ ∉ hashKeys h)
    (hvs : vs.length = req.length + optk.length) :
    ∀ r, r = rb_get_kwargs (some h) (req ++ optk) req.length p (some vs) →
      r.missingPart = some [req.get ⟨n, hn⟩] ∧
      (∀ vf, r.finalValues = some vf →
        (∀ i (hi : i < n), vf[i]? =
          some (hashLookup2 h (req.get ⟨i, by omega⟩) .undef)) ∧
        vf[n]? = some RValue.undef ∧
        (∀ i, n < i → vf[i]? = vs[i]?)) ∧
      (∀ hf, r.finalHash = some hf →
        ∀ i (hi : i < n), req.get ⟨i, by omega⟩ ∉ hashKeys hf) := by
  intro r hr
  rw [kwargs_extract_missing h vs req optk p hu hnd n hn hfirst habs] at hr
  subst hr
  have hlen_take : (req.take n).length = n := by
    rw [List.length_take]
    omega
  have hwlen : (writeSlots vs h 0 (req.take n)).length = vs.length :=
    writeSlots_length vs h 0 (req.take n)
  refine ⟨rfl, ?_, ?_⟩
  · intro vf hvf
    have hveq : vf = (writeSlots vs h 0 (req.take n)).set n .undef := by
      simpa [KwResult.finalValues] using hvf.symm
    subst hveq
    refine ⟨?_, ?_, ?_⟩
    · intro i hi
      rw [List.getElem?_set, if_neg (by omega)]
      have hmm := writeSlots_getElem?_mem vs h 0 (req.take n)
        (m := i) (by omega) (by omega)
      rw [Nat.zero_add] at hmm
      rw [hmm]
      have hget : (req.take n).get ⟨i, by omega⟩ = req.get ⟨i, by omega⟩ := by
        simp [List.get_eq_getElem, List.getElem_take]
      rw [hget]
    · rw [List.getElem?_set, if_pos rfl, if_pos (by omega)]
    · intro i hi
      rw [List.getElem?_set, if_neg (by omega)]
      exact writeSlots_getElem?_ge vs h 0 (req.take n) (by omega)
  · intro hf hhf
    have hfeq : hf = hashDelete
        (h.filter (fun q => decide (q.1 ∉ req.take n))) (req.get ⟨n, hn⟩) := by
      simpa [KwResult.finalHash] using hhf.symm
    subst hfeq
    intro i hi hmem
    obtain ⟨v, hv⟩ := mem_hashKeys.mp hmem
    rw [hashDelete_eq_filter] at hv
    have hv1 := (List.mem_filter.mp hv).1
    have hP := (List.mem_filter.mp hv1).2
    simp only [decide_eq_true_eq] at hP
    apply hP
    refine List.mem_take_iff_getElem.mpr ⟨i, lt_min_iff.mpr ⟨hi, by omega⟩, ?_⟩
    simp [List.get_eq_getElem]

theorem claim9_missing_extract_state_witness :
    (rb_get_kwargs (some [(0, RValue.obj 5)]) ([0, 1] ++ []) 2 0
        (some [RValue.obj 100, RValue.obj 100])).missingPart = some [1] :=
  (claim9_missing_extract_state [(0, RValue.obj 5)]
    [RValue.obj 100, RValue.obj 100] [0, 1] [] 0
    (by unfold UndefFree; decide) (by decide) 1
    (by decide)
    (fun i hi => by
      have hz : i = 0 := by omega
      subst hz
      show (0 : ID) ∈ hashKeys [(0, RValue.obj 5)]
      decide)
    (by decide) rfl _ rfl).1

/-- C1: for a non-nil mapping containing all required keys, some optional
keys, and otherwise only non-schema keys allowed by `rest`, the extract-mode
call succeeds with `filledCount` = R + (number of optional keys present),
every slot of an absent optional key holds `Qundef`, no schema-declared key
remains in the mapping, and every non-schema entry remains untouched. -/
theorem claim1_success (h : Hash) (vs : List RValue) (req optk : List ID)
    (rest : Bool) (hu : UndefFree h) (hscN : (req ++ optk).Nodup)
    (hreq : ∀ k ∈ req, k ∈ hashKeys h)
    (hnu : rest = true ∨ nonSchema h req optk = [])
    (hvs : vs.length = req.length + optk.length) :
    ∀ r, r = rb_get_kwargs (some h) (req ++ optk) req.length
        (encodeOpt rest optk.length) (some vs) →
      r.okCount = some (req.length + presentCount h optk) ∧
      (∀ vf, r.finalValues = some vf →
        ∀ m (hm : m < optk.length), optk.get ⟨m, hm⟩ ∉ hashKeys h →
          vf[req.length + m]? = some RValue.undef) ∧
      (∀ hf, r.finalHash = some hf →
        (∀ k ∈ req ++ optk, k ∉ hashKeys hf) ∧
        (∀ q ∈ h, q.1 ∉ req ++ optk → q ∈ hf)) := by
  intro r hr
  rw [kwargs_extract_ok h vs req optk rest hu hscN hreq hnu] at hr
  subst hr
  refine ⟨rfl, ?_, ?_⟩
  · intro vf hvf m hm habs
    have hveq : vf = tailFill
        (writeSlots (writeSlots vs h 0 req) h req.length optk)
        (req.length + presentCount h optk) (req.length + optk.length) := by
      simpa [KwResult.finalValues] using hvf.symm
    subst hveq
    have hblen : (writeSlots (writeSlots vs h 0 req) h req.length optk).length
        = vs.length := by
      rw [writeSlots_length, writeSlots_length]
    have hple : presentCount h optk ≤ optk.length :=
      List.length_filter_le _ _
    have hilen : (writeSlots vs h 0 req).length = vs.length :=
      writeSlots_length vs h 0 req
    rw [tailFill_eq_fillRange]
    by_cases hcase : req.length + m < req.length + presentCount h optk
    · rw [fillRange_getElem?_lt _ _ _ hcase]
      have hmm := writeSlots_getElem?_mem (writeSlots vs h 0 req) h
        req.length optk (m := m) hm (by omega)
      rw [hmm, hashLookup2_eq_default_of_not_mem habs]
    · rw [fillRange_getElem?_mem _ _ _ (by omega) (by omega) (by omega)]
  · intro hf hhf
    have hfeq : hf = nonSchema h req optk := by
      simpa [KwResult.finalHash] using hhf.symm
    subst hfeq
    constructor
    · intro k hk hmem
      obtain ⟨v, hv⟩ := mem_hashKeys.mp hmem
      have hP := (List.mem_filter.mp hv).2
      simp only [decide_eq_true_eq] at hP
      exact hP hk
    · intro q hq hqn
      exact List.mem_filter.mpr ⟨hq, by simpa using hqn⟩

theorem claim1_success_witness :
    (rb_get_kwargs (some [(0, RValue.obj 7)]) ([0] ++ [1]) 1
        (encodeOpt false 1)
        (some [RValue.nil, RValue.nil])).okCount =
      some (1 + presentCount [(0, RValue.obj 7)] [1]) :=
  (claim1_success [(0, RValue.obj 7)] [RValue.nil, RValue.nil] [0] [1] false
    (by unfold UndefFree; decide) (by decide) (by decide)
    (Or.inr (by decide)) rfl _ rfl).1

/-- C3: with all required keys present, the call raises the
unknown-keyword fault exactly when `rest` is disallowed and the mapping
holds at least one non-schema key, and the fault lists precisely the
non-schema keys (those remaining after deleting every schema key), in both
probe and extract mode. -/
theorem claim3_unknown_iff (h : Hash) (req optk : List ID) (rest : Bool)
    (values : Option (List RValue)) (hu : UndefFree h)
    (hkN : (hashKeys h).Nodup) (hscN : (req ++ optk).Nodup)
    (hreq : ∀ k ∈ req, k ∈ hashKeys h) :
    (rb_get_kwargs (some h) (req ++ optk) req.length
        (encodeOpt rest optk.length) values).unknownPart =
      if rest = false ∧ nonSchema h req optk ≠ [] then
        some (hashKeys (nonSchema h req optk))
      else none := by
  by_cases hc : rest = false ∧ nonSchema h req optk ≠ []
  · rw [if_pos hc]
    obtain ⟨hr, hne⟩ := hc
    subst hr
    cases values with
    | none =>
      rw [kwargs_probe_unknown h req optk hu hkN hscN hreq hne]
      rfl
    | some vs =>
      rw [kwargs_extract_unknown h vs req optk hu hscN hreq hne]
      rfl
  · rw [if_neg hc]
    have hnu : rest = true ∨ nonSchema h req optk = [] := by
      rcases Bool.eq_false_or_eq_true rest with hb | hb
      · exact .inl hb
      · right
        by_contra hne
        exact hc ⟨hb, hne⟩
    cases values with
    | none =>
      rw [kwargs_probe_ok h req optk rest hu hkN hscN hreq hnu]
      exact finish_probe_unknownPart _ _ _
    | some vs =>
      rw [kwargs_extract_ok h vs req optk rest hu hscN hreq hnu]
      rfl

theorem claim3_unknown_iff_witness :
    (rb_get_kwargs (some [(0, RValue.obj 1), (5, RValue.obj 2)]) ([0] ++ [])
        1 (encodeOpt false 0) none).unknownPart =
      if false = false ∧
          nonSchema [(0, RValue.obj 1), (5, RValue.obj 2)] [0] [] ≠ [] then
        some (hashKeys (nonSchema [(0, RValue.obj 1), (5, RValue.obj 2)]
          [0] []))
      else none :=
  claim3_unknown_iff [(0, RValue.obj 1), (5, RValue.obj 2)] [0] [] false none
    (by unfold UndefFree; decide) (by decide) (by decide) (by decide)

end Args
